import Mathlib

/-!
Shallow embedding of the splat animation core (src/lib/animation.js) and of
the camera helper (src/lib/camera.js).

JavaScript numbers are modelled as rationals.  Image handles are an opaque
type parameter; the external pixel-buffer transforms (the buffer module,
which is outside this fragment) are modelled as opaque functions on handles,
exactly as the methods of Animation receive them.  The while loop inside
Animation.prototype.move is modelled with explicit fuel, so that both its
termination (for positive frame durations) and its divergence (for a zero
duration) can be stated.
-/

/-- One frame of an animation: the record pushed by Animation.prototype.add,
holding an image handle and a display duration in milliseconds. -/
structure Frame (Img : Type) where
  img : Img
  time : ℚ
deriving DecidableEq

/-- The Animation object, field for field the state set up by the Animation
constructor: frames is the array of frames, frame the index of the currently
displayed frame, elapsedMillis the time accumulated on that frame, repeatAt
the index the animation restarts from after the last frame, width and height
the dimensions snapshotted from the first frame added. -/
structure Animation (Img : Type) where
  frames : List (Frame Img)
  frame : ℕ
  elapsedMillis : ℚ
  repeatAt : ℕ
  width : ℚ
  height : ℚ
deriving DecidableEq

/-- A freshly constructed Animation (function Animation()). -/
def Animation.init (Img : Type) : Animation Img :=
  ⟨[], 0, 0, 0, 0, 0⟩

/-- Animation.prototype.step: increment frame; if it now reaches past the end
of frames, reset it to repeatAt. -/
def Animation.step {Img : Type} (a : Animation Img) : Animation Img :=
  if a.frames.length ≤ a.frame + 1 then { a with frame := a.repeatAt }
  else { a with frame := a.frame + 1 }

/-- The while loop of Animation.prototype.move, with explicit fuel: while
elapsedMillis exceeds the current frame's time, subtract that time and step.
The result is none when the fuel runs out with the loop still running, and
also when the frame index is out of range (there the JS code fails reading
frames[this.frame].time). -/
def Animation.moveLoop {Img : Type} : ℕ → Animation Img → Option (Animation Img)
  | 0, _ => none
  | fuel + 1, a =>
    match a.frames[a.frame]? with
    | none => none
    | some fr =>
      if fr.time < a.elapsedMillis then
        Animation.moveLoop fuel ({ a with elapsedMillis := a.elapsedMillis - fr.time }).step
      else some a

/-- Animation.prototype.move: add the elapsed delta to elapsedMillis, then
run the catch-up loop. -/
def Animation.move {Img : Type} (fuel : ℕ) (deltaMillis : ℚ) (a : Animation Img) :
    Option (Animation Img) :=
  Animation.moveLoop fuel { a with elapsedMillis := a.elapsedMillis + deltaMillis }

/-- Animation.prototype.rotateClockwise: swap width and height once, then
replace every frame's image through the external clockwise transform. -/
def Animation.rotateClockwise {Img : Type} (rot : Img → Img) (a : Animation Img) :
    Animation Img :=
  { a with width := a.height, height := a.width,
           frames := a.frames.map fun fr => { fr with img := rot fr.img } }

/-- Animation.prototype.rotateCounterclockwise: swap width and height once,
then replace every frame's image through the external counter-clockwise
transform. -/
def Animation.rotateCounterclockwise {Img : Type} (rot : Img → Img) (a : Animation Img) :
    Animation Img :=
  { a with width := a.height, height := a.width,
           frames := a.frames.map fun fr => { fr with img := rot fr.img } }

/-- A heap of frame arrays: a JS array reference is an index into this list.
This models the reference sharing created by `anim.frames = this.frames`
inside Animation.prototype.copy. -/
abbrev FrameHeap (Img : Type) := List (List (Frame Img))

/-- An Animation whose frames field holds the JS array reference itself
rather than the array contents; the other fields are as in Animation. -/
structure AnimationRef where
  framesRef : ℕ
  frame : ℕ
  elapsedMillis : ℚ
  repeatAt : ℕ
  width : ℚ
  height : ℚ
deriving DecidableEq

/-- Animation.prototype.copy: a new Animation whose frames field receives the
same array reference, and whose other fields are copied by value. -/
def AnimationRef.copy (a : AnimationRef) : AnimationRef :=
  ⟨a.framesRef, a.frame, a.elapsedMillis, a.repeatAt, a.width, a.height⟩

/-- Animation.prototype.flipHorizontally, acting on the heap: every frame of
the referenced array gets its image replaced through the external transform,
in place.  The animation record itself is unchanged (the method returns
this). -/
def AnimationRef.flipHorizontally {Img : Type} (flip : Img → Img) (h : FrameHeap Img)
    (a : AnimationRef) : FrameHeap Img :=
  h.set a.framesRef ((h.getD a.framesRef []).map fun fr => { fr with img := flip fr.img })

/-- Animation.prototype.draw, reduced to its observable effect: the image
handle frames[this.frame].img handed to context.drawImage. -/
def AnimationRef.draw {Img : Type} (h : FrameHeap Img) (a : AnimationRef) : Option Img :=
  h[a.framesRef]?.bind fun l => l[a.frame]?.map Frame.img

/-- Truncation toward zero on the rationals, the first step of the JS ToInt32
coercion performed by the `x|0` expressions in src/lib/camera.js. -/
def ratTrunc (q : ℚ) : ℤ :=
  if 0 ≤ q then ⌊q⌋ else ⌈q⌉

/-- The JS coercion `x|0` (ToInt32): truncate toward zero, then wrap into the
signed 32-bit range. -/
def toInt32 (q : ℚ) : ℤ :=
  if Int.emod (ratTrunc q) (2 ^ 32) < 2 ^ 31 then Int.emod (ratTrunc q) (2 ^ 32)
  else Int.emod (ratTrunc q) (2 ^ 32) - 2 ^ 32

/-- The slice of 2D-canvas state the camera touches: the translation part of
the current transform, plus the stack managed by save and restore. -/
structure Ctx where
  translation : ℚ × ℚ
  stack : List (ℚ × ℚ)
deriving DecidableEq

/-- context.translate: compose a translation with the current transform. -/
def Ctx.translate (c : Ctx) (dx dy : ℚ) : Ctx :=
  { c with translation := (c.translation.1 + dx, c.translation.2 + dy) }

/-- context.save: push the current state onto the stack. -/
def Ctx.save (c : Ctx) : Ctx :=
  { c with stack := c.translation :: c.stack }

/-- context.restore: pop the last saved state; a no-op on an empty stack. -/
def Ctx.restore (c : Ctx) : Ctx :=
  match c.stack with
  | [] => c
  | t :: rest => ⟨t, rest⟩

/-- The camera of src/lib/camera.js: an Entity positioned at x, y.  As the
source notes, width and height are unused by its two methods. -/
structure Camera where
  x : ℚ
  y : ℚ
  width : ℚ
  height : ℚ

/-- Camera.prototype.draw: translate the context by (-(x|0), -(y|0)). -/
def Camera.draw (cam : Camera) (c : Ctx) : Ctx :=
  c.translate (-(toInt32 cam.x : ℚ)) (-(toInt32 cam.y : ℚ))

/-- Camera.prototype.drawAbsolute: save, translate by (x|0, y|0), run the
callback, restore.  A callback takes the context and yields the mutated
context together with an optionally thrown exception; when it throws, the
exception propagates at once and the restore line is never reached, exactly
as in the JS source, which has no try/finally around drawFunc(). -/
def Camera.drawAbsolute {E : Type} (cam : Camera) (drawFunc : Ctx → Ctx × Option E)
    (c : Ctx) : Ctx × Option E :=
  match drawFunc ((c.save).translate (toInt32 cam.x : ℚ) (toInt32 cam.y : ℚ)) with
  | (c2, some e) => (c2, some e)
  | (c2, none) => (c2.restore, none)

/-- A one-frame animation of duration 100 ms, for concrete runs. -/
def oneFrame100 : Animation Unit :=
  ⟨[⟨(), 100⟩], 0, 0, 0, 0, 0⟩

/-- The state oneFrame100 reaches after move(100): elapsedMillis equals the
frame duration exactly. -/
def oneFrame100After : Animation Unit :=
  ⟨[⟨(), 100⟩], 0, 100, 0, 0, 0⟩

/-- The worked example of the spec: three frames of 100 ms each. -/
def threeFrames : Animation Unit :=
  ⟨[⟨(), 100⟩, ⟨(), 100⟩, ⟨(), 100⟩], 0, 0, 0, 0, 0⟩

/-- A single frame of duration zero: the non-positive-duration hazard. -/
def zeroFrame : Animation Unit :=
  ⟨[⟨(), 0⟩], 0, 0, 0, 0, 0⟩

/-- A single frame of negative duration: the other half of the hazard. -/
def negFrame : Animation Unit :=
  ⟨[⟨(), -5⟩], 0, 0, 0, 0, 0⟩

/-- A callback that throws immediately, leaving the context untouched. -/
def throwingCallback : Ctx → Ctx × Option Unit :=
  fun c => (c, some ())

/-- A callback that draws nothing and returns normally. -/
def okCallback : Ctx → Ctx × Option Unit :=
  fun c => (c, none)

/-- The identity context: no translation, empty save stack. -/
def ctx0 : Ctx :=
  ⟨(0, 0), []⟩

/-- A heap holding one frame array with a single frame, image handle 7. -/
def heap1 : FrameHeap ℕ :=
  [[⟨7, 100⟩]]

/-- A reference-based animation pointing at the single array of heap1. -/
def animRef1 : AnimationRef :=
  ⟨0, 0, 0, 0, 1, 1⟩

/-- step never touches the frames array. -/
theorem Animation.step_frames {Img : Type} (a : Animation Img) : a.step.frames = a.frames := by
  unfold Animation.step
  split <;> rfl

/-- step never touches elapsedMillis. -/
theorem Animation.step_elapsed {Img : Type} (a : Animation Img) :
    a.step.elapsedMillis = a.elapsedMillis := by
  unfold Animation.step
  split <;> rfl

/-- step never touches repeatAt. -/
theorem Animation.step_repeatAt {Img : Type} (a : Animation Img) :
    a.step.repeatAt = a.repeatAt := by
  unfold Animation.step
  split <;> rfl

/-- When repeatAt is a valid index, step keeps the frame index in range. -/
theorem Animation.step_frame_lt {Img : Type} (a : Animation Img)
    (hr : a.repeatAt < a.frames.length) : a.step.frame < a.frames.length := by
  unfold Animation.step
  split
  · exact hr
  · rename_i hc
    simpa using Nat.lt_of_not_le hc

/-- step commutes with overwriting elapsedMillis, since its branches read and
write only the frame index. -/
theorem Animation.step_setElapsed {Img : Type} (a : Animation Img) (x : ℚ) :
    ({ a with elapsedMillis := x } : Animation Img).step
      = { a.step with elapsedMillis := x } := by
  simp only [Animation.step]
  split <;> rfl

/-- Unfolding the catch-up loop when the current frame exists. -/
theorem Animation.moveLoop_succ_some {Img : Type} (fuel : ℕ) (a : Animation Img)
    (fr : Frame Img) (hg : a.frames[a.frame]? = some fr) :
    Animation.moveLoop (fuel + 1) a =
      if fr.time < a.elapsedMillis then
        Animation.moveLoop fuel ({ a with elapsedMillis := a.elapsedMillis - fr.time }).step
      else some a := by
  rw [Animation.moveLoop]
  simp only [hg]

/-- Unfolding the catch-up loop when the frame index is out of range. -/
theorem Animation.moveLoop_succ_none {Img : Type} (fuel : ℕ) (a : Animation Img)
    (hg : a.frames[a.frame]? = none) :
    Animation.moveLoop (fuel + 1) a = none := by
  rw [Animation.moveLoop]
  simp only [hg]

/-- More fuel never changes the result of a completed catch-up loop. -/
theorem Animation.moveLoop_mono {Img : Type} (f1 : ℕ) :
    ∀ (f2 : ℕ) (a b : Animation Img), f1 ≤ f2 → Animation.moveLoop f1 a = some b →
      Animation.moveLoop f2 a = some b := by
  induction f1 with
  | zero =>
    intro f2 a b _ h
    simp [Animation.moveLoop] at h
  | succ f1 ih =>
    intro f2 a b hle h
    obtain ⟨f2, rfl⟩ : ∃ k, f2 = k + 1 := ⟨f2 - 1, by omega⟩
    cases hg : a.frames[a.frame]? with
    | none => rw [Animation.moveLoop_succ_none f1 a hg] at h; exact absurd h (by simp)
    | some fr =>
      rw [Animation.moveLoop_succ_some f1 a fr hg] at h
      rw [Animation.moveLoop_succ_some f2 a fr hg]
      by_cases hc : fr.time < a.elapsedMillis
      · rw [if_pos hc] at h ⊢
        exact ih f2 _ b (by omega) h
      · rw [if_neg hc] at h ⊢
        exact h

/-- Loop invariant of the catch-up loop: frames and repeatAt are untouched,
the frame index stays in range, elapsedMillis stays non-negative, and on exit
it is at most the current frame's time (the negation of the loop guard,
which is a strict inequality). -/
theorem Animation.moveLoop_inv {Img : Type} (fuel : ℕ) :
    ∀ (a b : Animation Img), a.frame < a.frames.length → a.repeatAt < a.frames.length →
      0 ≤ a.elapsedMillis → Animation.moveLoop fuel a = some b →
      b.frames = a.frames ∧ b.repeatAt = a.repeatAt ∧ b.frame < b.frames.length ∧
        0 ≤ b.elapsedMillis ∧ ∀ fr, b.frames[b.frame]? = some fr → b.elapsedMillis ≤ fr.time := by
  induction fuel with
  | zero =>
    intro a b _ _ _ h
    simp [Animation.moveLoop] at h
  | succ fuel ih =>
    intro a b hf hr he h
    cases hg : a.frames[a.frame]? with
    | none => rw [Animation.moveLoop_succ_none fuel a hg] at h; exact absurd h (by simp)
    | some fr =>
      rw [Animation.moveLoop_succ_some fuel a fr hg] at h
      by_cases hc : fr.time < a.elapsedMillis
      · rw [if_pos hc] at h
        have hsub : (0 : ℚ) ≤ a.elapsedMillis - fr.time := by linarith
        have hf2 : ({ a with elapsedMillis := a.elapsedMillis - fr.time } : Animation Img).step.frame
            < ({ a with elapsedMillis := a.elapsedMillis - fr.time } : Animation Img).step.frames.length := by
          rw [Animation.step_frames]
          exact Animation.step_frame_lt _ hr
        have hr2 : ({ a with elapsedMillis := a.elapsedMillis - fr.time } : Animation Img).step.repeatAt
            < ({ a with elapsedMillis := a.elapsedMillis - fr.time } : Animation Img).step.frames.length := by
          rw [Animation.step_frames, Animation.step_repeatAt]
          exact hr
        have he2 : (0 : ℚ)
            ≤ ({ a with elapsedMillis := a.elapsedMillis - fr.time } : Animation Img).step.elapsedMillis := by
          rw [Animation.step_elapsed]
          exact hsub
        obtain ⟨hb1, hb2, hb3, hb4, hb5⟩ := ih _ b (by simpa [Animation.step_frames] using hf2) hr2 he2 h
        rw [Animation.step_frames] at hb1
        rw [Animation.step_repeatAt] at hb2
        exact ⟨hb1, hb2, hb3, hb4, hb5⟩
      · rw [if_neg hc] at h
        obtain rfl : a = b := by simpa using h
        refine ⟨rfl, rfl, hf, he, ?_⟩
        intro fr2 hg2
        rw [hg] at hg2
        obtain rfl : fr = fr2 := by simpa using hg2
        exact le_of_not_lt hc

/-- step written out on a constructor application. -/
theorem Animation.step_mk {Img : Type} (fs : List (Frame Img)) (i r : ℕ) (x w h : ℚ) :
    (Animation.mk fs i x r w h).step
      = Animation.mk fs (if fs.length ≤ i + 1 then r else i + 1) x r w h := by
  unfold Animation.step
  split <;> simp_all

/-- Unfolding the catch-up loop when its guard holds. -/
theorem Animation.moveLoop_succ_gt {Img : Type} (fuel : ℕ) (a : Animation Img)
    (fr : Frame Img) (hg : a.frames[a.frame]? = some fr) (hc : fr.time < a.elapsedMillis) :
    Animation.moveLoop (fuel + 1) a
      = Animation.moveLoop fuel ({ a with elapsedMillis := a.elapsedMillis - fr.time }).step := by
  rw [Animation.moveLoop_succ_some fuel a fr hg, if_pos hc]

/-- Unfolding the catch-up loop when its guard fails: the loop exits. -/
theorem Animation.moveLoop_succ_le {Img : Type} (fuel : ℕ) (a : Animation Img)
    (fr : Frame Img) (hg : a.frames[a.frame]? = some fr) (hc : ¬ fr.time < a.elapsedMillis) :
    Animation.moveLoop (fuel + 1) a = some a := by
  rw [Animation.moveLoop_succ_some fuel a fr hg, if_neg hc]

/-- Adding a non-negative delta to elapsedMillis before the catch-up loop has
the same effect as running the loop first and adding the delta afterwards:
the key lemma behind additivity of move. -/
theorem Animation.moveLoop_add {Img : Type} (d : ℚ) (hd : 0 ≤ d) (f1 : ℕ) :
    ∀ (f2 : ℕ) (a b c : Animation Img),
      Animation.moveLoop f1 a = some b →
      Animation.moveLoop f2 { b with elapsedMillis := b.elapsedMillis + d } = some c →
      Animation.moveLoop (f1 + f2) { a with elapsedMillis := a.elapsedMillis + d } = some c := by
  induction f1 with
  | zero =>
    intro f2 a b c h1 _
    simp [Animation.moveLoop] at h1
  | succ f1 ih =>
    intro f2 a b c h1 h2
    obtain ⟨fs, i, e, r, w, hh⟩ := a
    cases hg : fs[i]? with
    | none =>
      rw [Animation.moveLoop_succ_none f1 _ hg] at h1
      exact absurd h1 (by simp)
    | some fr =>
      by_cases hc : fr.time < e
      · rw [Animation.moveLoop_succ_gt f1 _ fr hg hc] at h1
        have h1' : Animation.moveLoop f1 (Animation.mk fs i (e - fr.time) r w hh).step
            = some b := h1
        rw [Animation.step_mk] at h1'
        have key : Animation.moveLoop (f1 + f2)
            (Animation.mk fs (if fs.length ≤ i + 1 then r else i + 1) (e - fr.time + d) r w hh)
            = some c := ih f2 _ b c h1' h2
        show Animation.moveLoop (f1 + 1 + f2) (Animation.mk fs i (e + d) r w hh) = some c
        have hsplit : f1 + 1 + f2 = (f1 + f2) + 1 := by omega
        rw [hsplit]
        have hc2 : fr.time < e + d := by linarith
        rw [Animation.moveLoop_succ_gt (f1 + f2) _ fr hg hc2]
        show Animation.moveLoop (f1 + f2) (Animation.mk fs i (e + d - fr.time) r w hh).step
          = some c
        rw [Animation.step_mk]
        have harith : e + d - fr.time = e - fr.time + d := by ring
        rw [harith]
        exact key
      · rw [Animation.moveLoop_succ_le f1 _ fr hg hc] at h1
        obtain rfl : b = Animation.mk fs i e r w hh := by
          cases h1
          rfl
        exact Animation.moveLoop_mono f2 (f1 + 1 + f2) _ c (by omega) h2

/-- A finite list of positive rationals has a positive lower bound. -/
theorem List.exists_pos_lb (l : List ℚ) (hpos : ∀ x ∈ l, 0 < x) :
    ∃ m : ℚ, 0 < m ∧ ∀ x ∈ l, m ≤ x := by
  induction l with
  | nil => exact ⟨1, one_pos, by simp⟩
  | cons x xs ih =>
    obtain ⟨m, hm, hall⟩ := ih fun y hy => hpos y (List.mem_cons_of_mem x hy)
    refine ⟨min x m, lt_min (hpos x (by simp)) hm, ?_⟩
    intro y hy
    rcases List.mem_cons.mp hy with rfl | hy
    · exact min_le_left _ _
    · exact le_trans (min_le_right _ _) (hall y hy)

/-- Fuel sufficiency: when every frame's time is at least m > 0 and the
indices are in range, fuel covering elapsedMillis / m completes the loop. -/
theorem Animation.moveLoop_total {Img : Type} (m : ℚ) (hm : 0 < m) (fuel : ℕ) :
    ∀ a : Animation Img, (∀ fr ∈ a.frames, m ≤ fr.time) → a.frame < a.frames.length →
      a.repeatAt < a.frames.length → a.elapsedMillis ≤ m * fuel →
      ∃ b, Animation.moveLoop (fuel + 1) a = some b := by
  induction fuel with
  | zero =>
    intro a hall hf hr he
    have hg : a.frames[a.frame]? = some a.frames[a.frame] := List.getElem?_eq_getElem hf
    have hmem : a.frames[a.frame] ∈ a.frames := List.getElem_mem hf
    have hfr := hall _ hmem
    refine ⟨a, Animation.moveLoop_succ_le 0 a _ hg ?_⟩
    push_cast at he
    simp only [not_lt]
    linarith
  | succ fuel ih =>
    intro a hall hf hr he
    have hg : a.frames[a.frame]? = some a.frames[a.frame] := List.getElem?_eq_getElem hf
    have hmem : a.frames[a.frame] ∈ a.frames := List.getElem_mem hf
    have hfr := hall _ hmem
    by_cases hc : (a.frames[a.frame]).time < a.elapsedMillis
    · have hstep :
          ∃ b, Animation.moveLoop (fuel + 1)
            ({ a with elapsedMillis := a.elapsedMillis - (a.frames[a.frame]).time } :
              Animation Img).step = some b := by
        apply ih
        · intro fr hfr2
          apply hall
          rw [Animation.step_frames] at hfr2
          exact hfr2
        · rw [Animation.step_frames]
          exact Animation.step_frame_lt _ hr
        · rw [Animation.step_frames, Animation.step_repeatAt]
          exact hr
        · rw [Animation.step_elapsed]
          push_cast at he ⊢
          show a.elapsedMillis - (a.frames[a.frame]).time ≤ m * fuel
          have : m * (fuel + 1) = m * fuel + m := by ring
          linarith [he, hfr, this]
      obtain ⟨b, hb⟩ := hstep
      exact ⟨b, by rw [Animation.moveLoop_succ_gt (fuel + 1) a _ hg hc]; exact hb⟩
    · exact ⟨a, Animation.moveLoop_succ_le (fuel + 1) a _ hg hc⟩

/-- The catch-up loop never exits on a one-frame animation whose only frame
has a non-positive duration, once elapsedMillis exceeds it: each pass
subtracts the non-positive duration, which cannot shrink elapsedMillis, and
steps back to the same frame. -/
theorem Animation.moveLoop_nonpos_duration_diverges (t : ℚ) (ht : t ≤ 0) (fuel : ℕ) :
    ∀ e : ℚ, t < e →
      Animation.moveLoop fuel (Animation.mk [⟨(), t⟩] 0 e 0 0 0) = none := by
  induction fuel with
  | zero => intro e _; rfl
  | succ fuel ih =>
    intro e he
    have hg : (Animation.mk [(⟨(), t⟩ : Frame Unit)] 0 e 0 0 0).frames[
        (Animation.mk [(⟨(), t⟩ : Frame Unit)] 0 e 0 0 0).frame]? = some ⟨(), t⟩ := rfl
    have hc : ((⟨(), t⟩ : Frame Unit)).time
        < (Animation.mk [(⟨(), t⟩ : Frame Unit)] 0 e 0 0 0).elapsedMillis := by
      show t < e
      exact he
    rw [Animation.moveLoop_succ_gt fuel _ _ hg hc]
    show Animation.moveLoop fuel (Animation.mk [⟨(), t⟩] 0 (e - t) 0 0 0).step = none
    rw [Animation.step_mk]
    show Animation.moveLoop fuel (Animation.mk [⟨(), t⟩] 0 (e - t) 0 0 0) = none
    exact ih (e - t) (by linarith)

/-- Stepping a sum by one commutes with reduction mod n. -/
theorem addOneMod (x n : ℕ) : (x + 1) % n = (x % n + 1) % n := by
  conv_lhs => rw [← Nat.mod_add_div x n]
  rw [Nat.add_right_comm]
  exact Nat.add_mul_mod_self_left (x % n + 1) n (x / n)

/-- With repeatAt zero, iterating step acts on the frame index as addition
mod the number of frames. -/
theorem Animation.step_iterate_mod {Img : Type} (fs : List (Frame Img)) (i : ℕ) (e w h : ℚ)
    (hf : i < fs.length) (n : ℕ) :
    Animation.step^[n] (Animation.mk fs i e 0 w h)
      = Animation.mk fs ((i + n) % fs.length) e 0 w h := by
  have hlen : 0 < fs.length := Nat.lt_of_le_of_lt (Nat.zero_le i) hf
  induction n with
  | zero =>
    simp only [Function.iterate_zero, id_eq]
    rw [Nat.add_zero, Nat.mod_eq_of_lt hf]
  | succ n ih =>
    rw [Function.iterate_succ_apply', ih, Animation.step_mk]
    have hk : (i + n) % fs.length < fs.length := Nat.mod_lt _ hlen
    have hmod : (i + (n + 1)) % fs.length = ((i + n) % fs.length + 1) % fs.length := by
      rw [← Nat.add_assoc]
      exact addOneMod (i + n) fs.length
    rw [hmod]
    by_cases hcase : fs.length ≤ (i + n) % fs.length + 1
    · rw [if_pos hcase]
      have hlen2 : (i + n) % fs.length + 1 = fs.length := by omega
      rw [hlen2, Nat.mod_self]
    · rw [if_neg hcase]
      rw [Nat.mod_eq_of_lt (show (i + n) % fs.length + 1 < fs.length by omega)]

/-- A well-formed animation whose frame durations are all positive always
completes a non-negative move for some fuel. -/
theorem Animation.move_total {Img : Type} (a : Animation Img) (d : ℚ)
    (hpos : ∀ fr ∈ a.frames, 0 < fr.time) (hf : a.frame < a.frames.length)
    (hr : a.repeatAt < a.frames.length) (he : 0 ≤ a.elapsedMillis) (hd : 0 ≤ d) :
    ∃ fuel b, Animation.move fuel d a = some b := by
  obtain ⟨m, hm, hall⟩ := List.exists_pos_lb (a.frames.map Frame.time) (by
    intro x hx
    obtain ⟨fr, hfr, rfl⟩ := List.mem_map.mp hx
    exact hpos fr hfr)
  have hall2 : ∀ fr ∈ a.frames, m ≤ fr.time :=
    fun fr hfr => hall _ (List.mem_map_of_mem _ hfr)
  obtain ⟨n, hn⟩ := exists_nat_ge ((a.elapsedMillis + d) / m)
  have hle : a.elapsedMillis + d ≤ m * n := by
    rw [div_le_iff₀ hm] at hn
    have hcomm : (n : ℚ) * m = m * n := by ring
    linarith
  obtain ⟨b, hb⟩ := Animation.moveLoop_total m hm n
    { a with elapsedMillis := a.elapsedMillis + d } hall2 hf hr hle
  exact ⟨n + 1, b, hb⟩

/-- Evaluating the ToInt32 coercion at 5. -/
theorem toInt32_five : toInt32 5 = 5 := by
  have h1 : ratTrunc 5 = 5 := by
    unfold ratTrunc
    rw [if_pos (by norm_num)]
    norm_num
  unfold toInt32
  rw [h1]
  decide

/-- Evaluating the ToInt32 coercion at 0. -/
theorem toInt32_zero : toInt32 0 = 0 := by
  have h1 : ratTrunc 0 = 0 := by
    unfold ratTrunc
    rw [if_pos (le_refl (0 : ℚ))]
    norm_num
  unfold toInt32
  rw [h1]
  decide

/-- Evaluating the ToInt32 coercion at -3/2: truncation toward zero gives -1,
where the floor would give -2. -/
theorem toInt32_negThreeHalves : toInt32 (-3/2) = -1 := by
  have h1 : ratTrunc (-3/2) = -1 := by
    unfold ratTrunc
    rw [if_neg (by norm_num)]
    rw [show (-3/2 : ℚ) = -(3/2 : ℚ) by norm_num, Int.ceil_neg]
    norm_num
  unfold toInt32
  rw [h1]
  decide

/-- Concrete run used by the C1 witness: move(50) on a fresh one-frame
animation of duration 100. -/
theorem move_fifty_oneFrame100 :
    Animation.move 1 50 oneFrame100 = some (Animation.mk [⟨(), 100⟩] 0 50 0 0 0) := by
  show Animation.moveLoop 1 (Animation.mk [⟨(), 100⟩] 0 (0 + 50) 0 0 0) = _
  rw [Animation.moveLoop_succ_le 0 (Animation.mk [⟨(), 100⟩] 0 (0 + 50) 0 0 0)
    ⟨(), 100⟩ rfl (by norm_num)]
  norm_num

/-- C1, amended: after any completed Advance(d) with d non-negative from a
well-formed state, elapsedMillis satisfies 0 <= elapsedMillis and
elapsedMillis <= frames[currentIndex].durationMillis.  The spec's strict
upper bound fails at the boundary because the loop guard is strict: see the
counterexample below, where elapsedMillis ends exactly equal to the
duration. -/
theorem animation_move_elapsed_bounds (Img : Type) (fuel : ℕ) (d : ℚ)
    (a b : Animation Img) (hf : a.frame < a.frames.length)
    (hr : a.repeatAt < a.frames.length) (he : 0 ≤ a.elapsedMillis) (hd : 0 ≤ d)
    (hmove : Animation.move fuel d a = some b) :
    0 ≤ b.elapsedMillis ∧ b.frame < b.frames.length ∧
      ∀ fr, b.frames[b.frame]? = some fr → b.elapsedMillis ≤ fr.time := by
  have h := Animation.moveLoop_inv fuel { a with elapsedMillis := a.elapsedMillis + d } b
    hf hr (add_nonneg he hd) hmove
  exact ⟨h.2.2.2.1, h.2.2.1, h.2.2.2.2⟩

/-- C1 witness: a concrete completed move satisfying the bounds. -/
theorem animation_move_elapsed_bounds_witness :
    oneFrame100.frame < oneFrame100.frames.length ∧
    oneFrame100.repeatAt < oneFrame100.frames.length ∧
    (0 : ℚ) ≤ oneFrame100.elapsedMillis ∧ (0 : ℚ) ≤ 50 ∧
    Animation.move 1 50 oneFrame100 = some (Animation.mk [⟨(), 100⟩] 0 50 0 0 0) ∧
    (0 ≤ (Animation.mk [(⟨(), 100⟩ : Frame Unit)] 0 50 0 0 0).elapsedMillis ∧
      (Animation.mk [(⟨(), 100⟩ : Frame Unit)] 0 50 0 0 0).frame
        < (Animation.mk [(⟨(), 100⟩ : Frame Unit)] 0 50 0 0 0).frames.length ∧
      ∀ fr, (Animation.mk [(⟨(), 100⟩ : Frame Unit)] 0 50 0 0 0).frames[
            (Animation.mk [(⟨(), 100⟩ : Frame Unit)] 0 50 0 0 0).frame]? = some fr →
        (Animation.mk [(⟨(), 100⟩ : Frame Unit)] 0 50 0 0 0).elapsedMillis ≤ fr.time) :=
  ⟨by decide, by decide, by decide, by decide, move_fifty_oneFrame100,
    animation_move_elapsed_bounds Unit 1 50 oneFrame100 _ (by decide) (by decide)
      (by decide) (by decide) move_fifty_oneFrame100⟩

/-- C1 counterexample: move(100) on a fresh one-frame animation of duration
100 completes with elapsedMillis exactly equal to the current frame's
duration, so the claimed strict bound elapsedMillis < duration is false. -/
theorem animation_move_elapsed_eq_duration_cex :
    Animation.move 1 100 oneFrame100 = some oneFrame100After ∧
    oneFrame100After.frames[oneFrame100After.frame]? = some ⟨(), 100⟩ ∧
    ¬ oneFrame100After.elapsedMillis < (Frame.mk () 100 : Frame Unit).time := by
  refine ⟨?_, rfl, by norm_num [oneFrame100After]⟩
  show Animation.moveLoop 1 (Animation.mk [⟨(), 100⟩] 0 (0 + 100) 0 0 0) = _
  rw [Animation.moveLoop_succ_le 0 (Animation.mk [⟨(), 100⟩] 0 (0 + 100) 0 0 0)
    ⟨(), 100⟩ rfl (by norm_num)]
  norm_num [oneFrame100After]

/-- C4: Advance is additive: from any well-formed state with positive frame
durations, Advance(d1) followed by Advance(d2) completes and reaches exactly
the state a single Advance(d1+d2) reaches. -/
theorem animation_move_additive (Img : Type) (a : Animation Img) (d1 d2 : ℚ)
    (hpos : ∀ fr ∈ a.frames, 0 < fr.time) (hf : a.frame < a.frames.length)
    (hr : a.repeatAt < a.frames.length) (he : 0 ≤ a.elapsedMillis)
    (hd1 : 0 ≤ d1) (hd2 : 0 ≤ d2) :
    ∃ (f1 f2 : ℕ) (b c : Animation Img),
      Animation.move f1 d1 a = some b ∧ Animation.move f2 d2 b = some c ∧
      Animation.move (f1 + f2) (d1 + d2) a = some c := by
  obtain ⟨f1, b, hb⟩ := Animation.move_total a d1 hpos hf hr he hd1
  obtain ⟨hbframes, hbrep, hbf, hbe, -⟩ :=
    Animation.moveLoop_inv f1 { a with elapsedMillis := a.elapsedMillis + d1 } b
      hf hr (add_nonneg he hd1) hb
  obtain ⟨f2, c, hc⟩ := Animation.move_total b d2
    (fun fr hfr => hpos fr (hbframes ▸ hfr)) hbf
    (by rw [hbrep, hbframes]; exact hr) hbe hd2
  refine ⟨f1, f2, b, c, hb, hc, ?_⟩
  have key := Animation.moveLoop_add d2 hd2 f1 f2
    { a with elapsedMillis := a.elapsedMillis + d1 } b c hb hc
  show Animation.moveLoop (f1 + f2)
    { a with elapsedMillis := a.elapsedMillis + (d1 + d2) } = some c
  have harith : a.elapsedMillis + (d1 + d2) = a.elapsedMillis + d1 + d2 := by ring
  rw [harith]
  exact key

/-- C4 witness: the spec's three-frame example with d1 = 250, d2 = 60. -/
theorem animation_move_additive_witness :
    (∀ fr ∈ threeFrames.frames, (0 : ℚ) < fr.time) ∧
    threeFrames.frame < threeFrames.frames.length ∧
    threeFrames.repeatAt < threeFrames.frames.length ∧
    (0 : ℚ) ≤ threeFrames.elapsedMillis ∧ (0 : ℚ) ≤ 250 ∧ (0 : ℚ) ≤ 60 ∧
    (∃ (f1 f2 : ℕ) (b c : Animation Unit),
      Animation.move f1 250 threeFrames = some b ∧
      Animation.move f2 60 b = some c ∧
      Animation.move (f1 + f2) (250 + 60) threeFrames = some c) :=
  ⟨by decide, by decide, by decide, by decide, by decide, by decide,
    animation_move_additive Unit threeFrames 250 60 (by decide) (by decide)
      (by decide) (by decide) (by decide) (by decide)⟩

/-- C5: when elapsedMillis is 0 and the delta equals exactly the current
frame's duration, Advance leaves the frame index unchanged and elapsedMillis
becomes equal to the duration, because the catch-up loop uses a strict
greater-than guard. -/
theorem animation_move_exact_duration_keeps_frame (Img : Type) (a : Animation Img)
    (fr : Frame Img) (fuel : ℕ) (hg : a.frames[a.frame]? = some fr)
    (he : a.elapsedMillis = 0) :
    Animation.move (fuel + 1) fr.time a
      = some (Animation.mk a.frames a.frame fr.time a.repeatAt a.width a.height) := by
  obtain ⟨fs, i, e, r, w, h⟩ := a
  obtain rfl : e = 0 := he
  show Animation.moveLoop (fuel + 1) (Animation.mk fs i (0 + fr.time) r w h) = _
  rw [Animation.moveLoop_succ_le fuel (Animation.mk fs i (0 + fr.time) r w h)
    fr hg (by norm_num)]
  norm_num

/-- C5 witness: the boundary run on a one-frame animation of duration 100. -/
theorem animation_move_exact_duration_keeps_frame_witness :
    oneFrame100.frames[oneFrame100.frame]? = some ⟨(), 100⟩ ∧
    oneFrame100.elapsedMillis = 0 ∧
    Animation.move 1 (Frame.mk () 100 : Frame Unit).time oneFrame100
      = some (Animation.mk oneFrame100.frames oneFrame100.frame
          (Frame.mk () 100 : Frame Unit).time oneFrame100.repeatAt
          oneFrame100.width oneFrame100.height) :=
  ⟨rfl, rfl,
    animation_move_exact_duration_keeps_frame Unit oneFrame100 ⟨(), 100⟩ 0 rfl rfl⟩

/-- C6: with every frame duration strictly positive and indices in range,
Advance completes for every non-negative delta (some finite fuel suffices for
the catch-up loop); conversely, on a frame of duration zero or of negative
duration the catch-up loop never exits, whatever the fuel: Advance(1) on the
one-frame animations of duration 0 and of duration -5 diverges. -/
theorem animation_move_terminates (Img : Type) :
    (∀ (a : Animation Img) (d : ℚ), (∀ fr ∈ a.frames, 0 < fr.time) →
      a.frame < a.frames.length → a.repeatAt < a.frames.length →
      0 ≤ a.elapsedMillis → 0 ≤ d →
      ∃ fuel b, Animation.move fuel d a = some b) ∧
    (∀ fuel : ℕ, Animation.move fuel 1 zeroFrame = none) ∧
    (∀ fuel : ℕ, Animation.move fuel 1 negFrame = none) := by
  refine ⟨?_, ?_, ?_⟩
  · intro a d hpos hf hr he hd
    exact Animation.move_total a d hpos hf hr he hd
  · intro fuel
    show Animation.moveLoop fuel (Animation.mk [⟨(), 0⟩] 0 (0 + 1) 0 0 0) = none
    exact Animation.moveLoop_nonpos_duration_diverges 0 le_rfl fuel (0 + 1) (by norm_num)
  · intro fuel
    show Animation.moveLoop fuel (Animation.mk [⟨(), -5⟩] 0 (0 + 1) 0 0 0) = none
    exact Animation.moveLoop_nonpos_duration_diverges (-5) (by norm_num) fuel (0 + 1)
      (by norm_num)

/-- C6 witness: termination on a concrete positive-duration animation. -/
theorem animation_move_terminates_witness :
    (∀ fr ∈ oneFrame100.frames, (0 : ℚ) < fr.time) ∧
    oneFrame100.frame < oneFrame100.frames.length ∧
    oneFrame100.repeatAt < oneFrame100.frames.length ∧
    (0 : ℚ) ≤ oneFrame100.elapsedMillis ∧ (0 : ℚ) ≤ 250 ∧
    (∃ fuel b, Animation.move fuel 250 oneFrame100 = some b) :=
  ⟨by decide, by decide, by decide, by decide, by decide,
    (animation_move_terminates Unit).1 oneFrame100 250 (by decide) (by decide)
      (by decide) (by decide) (by decide)⟩

/-- C8: with loopIndex 0 and a valid starting index, composing Step exactly
frames.length times returns the frame index to its starting value. -/
theorem animation_step_cycle_returns (Img : Type) (a : Animation Img)
    (hr : a.repeatAt = 0) (hf : a.frame < a.frames.length) :
    (Animation.step^[a.frames.length] a).frame = a.frame := by
  obtain ⟨fs, i, e, r, w, h⟩ := a
  obtain rfl : r = 0 := hr
  rw [Animation.step_iterate_mod fs i e w h hf]
  show (i + fs.length) % fs.length = i
  rw [Nat.add_mod_right, Nat.mod_eq_of_lt hf]

/-- C8 witness: three steps on the three-frame example return to frame 0. -/
theorem animation_step_cycle_returns_witness :
    threeFrames.repeatAt = 0 ∧ threeFrames.frame < threeFrames.frames.length ∧
    (Animation.step^[threeFrames.frames.length] threeFrames).frame = threeFrames.frame :=
  ⟨rfl, by decide, animation_step_cycle_returns Unit threeFrames rfl (by decide)⟩

/-- C9: rotateClockwise followed by rotateCounterclockwise restores the
original width and height, and each rotation swaps width and height exactly
once, for any animation and any number of frames. -/
theorem animation_rotate_roundtrip_dims (Img : Type) (rotCW rotCCW : Img → Img)
    (a : Animation Img) :
    ((a.rotateClockwise rotCW).rotateCounterclockwise rotCCW).width = a.width ∧
    ((a.rotateClockwise rotCW).rotateCounterclockwise rotCCW).height = a.height ∧
    (a.rotateClockwise rotCW).width = a.height ∧
    (a.rotateClockwise rotCW).height = a.width ∧
    (a.rotateCounterclockwise rotCCW).width = a.height ∧
    (a.rotateCounterclockwise rotCCW).height = a.width :=
  ⟨rfl, rfl, rfl, rfl, rfl, rfl⟩

/-- C10: Step on an animation whose frame list is empty raises no error: it
unconditionally sets the frame index to repeatAt, and on a freshly
constructed animation Step is the identity, leaving the frame index at 0. -/
theorem animation_step_empty_frames_safe (Img : Type) (a : Animation Img)
    (h : a.frames = []) :
    a.step.frame = a.repeatAt ∧ (Animation.init Img).step = Animation.init Img := by
  constructor
  · obtain ⟨fs, i, e, r, w, hh⟩ := a
    obtain rfl : fs = [] := h
    rw [Animation.step_mk]
    show (if ([] : List (Frame Img)).length ≤ i + 1 then r else i + 1) = r
    rw [if_pos (by simp)]
  · rfl

/-- C10 witness: the freshly constructed empty animation. -/
theorem animation_step_empty_frames_safe_witness :
    (Animation.init Unit).frames = [] ∧
    ((Animation.init Unit).step.frame = (Animation.init Unit).repeatAt ∧
      (Animation.init Unit).step = Animation.init Unit) :=
  ⟨rfl, animation_step_empty_frames_safe Unit (Animation.init Unit) rfl⟩

/-- C7: copy returns an animation whose every field is the source's — the
frames field receives the same array reference and the scalar fields are
copied by value — and therefore flipping the original's frames in place is
seen by the duplicate's subsequent draw: it renders the flipped image. -/
theorem animation_copy_shares_frames_aliasing (Img : Type) (flip : Img → Img)
    (h : FrameHeap Img) (a : AnimationRef) (img : Img)
    (hdraw : AnimationRef.draw h a.copy = some img) :
    a.copy = a ∧
    AnimationRef.draw (AnimationRef.flipHorizontally flip h a) a.copy
      = some (flip img) := by
  refine ⟨rfl, ?_⟩
  have hdraw1 : h[a.framesRef]?.bind (fun l => l[a.frame]?.map Frame.img) = some img :=
    hdraw
  cases hl : h[a.framesRef]? with
  | none =>
    rw [hl] at hdraw1
    cases hdraw1
  | some l =>
    rw [hl] at hdraw1
    have hdraw2 : l[a.frame]?.map Frame.img = some img := hdraw1
    cases hfr : l[a.frame]? with
    | none =>
      rw [hfr] at hdraw2
      cases hdraw2
    | some fr =>
      rw [hfr] at hdraw2
      have himg : fr.img = img := by simpa using hdraw2
      have hlen : a.framesRef < h.length := by
        by_contra hcon
        push_neg at hcon
        rw [List.getElem?_eq_none hcon] at hl
        cases hl
      have hgetD : h.getD a.framesRef [] = l := by
        rw [List.getD_eq_getElem?_getD, hl]
        rfl
      have hset : (AnimationRef.flipHorizontally flip h a)[a.framesRef]?
          = some (l.map fun fr2 => { fr2 with img := flip fr2.img }) := by
        unfold AnimationRef.flipHorizontally
        rw [List.getElem?_set, if_pos rfl, if_pos hlen, hgetD]
      have hmap : (l.map fun fr2 => ({ fr2 with img := flip fr2.img } : Frame Img))[
          a.frame]? = some { fr with img := flip fr.img } := by
        rw [List.getElem?_map, hfr]
        rfl
      show (AnimationRef.flipHorizontally flip h a)[a.framesRef]?.bind
        (fun l2 => l2[a.frame]?.map Frame.img) = some (flip img)
      rw [hset]
      show (l.map fun fr2 => ({ fr2 with img := flip fr2.img } : Frame Img))[
        a.frame]?.map Frame.img = some (flip img)
      rw [hmap, himg]
      rfl

/-- C7 witness: a one-array heap, image handle 7, flip modelled by the
successor function: the duplicate draws 8 after the original is flipped. -/
theorem animation_copy_shares_frames_aliasing_witness :
    AnimationRef.draw heap1 animRef1.copy = some 7 ∧
    (animRef1.copy = animRef1 ∧
      AnimationRef.draw (AnimationRef.flipHorizontally Nat.succ heap1 animRef1)
          animRef1.copy = some (Nat.succ 7)) :=
  ⟨rfl, animation_copy_shares_frames_aliasing ℕ Nat.succ heap1 animRef1 7 rfl⟩

/-- C2, amended: drawAbsolute saves the context state before translating by
(x|0, y|0) and invoking the callback — the state the callback sees carries
the pre-call translation on top of the save stack — and when the callback
returns without throwing and leaves the save stack balanced, the context
state is fully restored.  On the throwing path the restore is skipped: see
the counterexample below. -/
theorem camera_drawAbsolute_restores_on_normal_exit (E : Type) (cam : Camera)
    (c : Ctx) (f : Ctx → Ctx × Option E)
    (hok : (f ((c.save).translate (toInt32 cam.x : ℚ) (toInt32 cam.y : ℚ))).2 = none)
    (hbal : (f ((c.save).translate (toInt32 cam.x : ℚ) (toInt32 cam.y : ℚ))).1.stack
        = ((c.save).translate (toInt32 cam.x : ℚ) (toInt32 cam.y : ℚ)).stack) :
    ((c.save).translate (toInt32 cam.x : ℚ) (toInt32 cam.y : ℚ)).stack
        = c.translation :: c.stack ∧
    Camera.drawAbsolute cam f c = (c, none) := by
  refine ⟨rfl, ?_⟩
  unfold Camera.drawAbsolute
  rcases hfc : f ((c.save).translate (toInt32 cam.x : ℚ) (toInt32 cam.y : ℚ))
    with ⟨c2, e2⟩
  cases e2 with
  | some e =>
    rw [hfc] at hok
    simp at hok
  | none =>
    obtain ⟨tr2, st2⟩ := c2
    rw [hfc] at hbal
    have hstack : st2 = c.translation :: c.stack := hbal
    subst hstack
    rfl

/-- C2 witness: a callback that returns normally is balanced, and the
context comes back exactly as it was. -/
theorem camera_drawAbsolute_restores_on_normal_exit_witness :
    (okCallback ((ctx0.save).translate (toInt32 (Camera.mk 5 0 0 0).x : ℚ)
        (toInt32 (Camera.mk 5 0 0 0).y : ℚ))).2 = none ∧
    (okCallback ((ctx0.save).translate (toInt32 (Camera.mk 5 0 0 0).x : ℚ)
        (toInt32 (Camera.mk 5 0 0 0).y : ℚ))).1.stack
      = ((ctx0.save).translate (toInt32 (Camera.mk 5 0 0 0).x : ℚ)
        (toInt32 (Camera.mk 5 0 0 0).y : ℚ)).stack ∧
    (((ctx0.save).translate (toInt32 (Camera.mk 5 0 0 0).x : ℚ)
        (toInt32 (Camera.mk 5 0 0 0).y : ℚ)).stack
        = ctx0.translation :: ctx0.stack ∧
      Camera.drawAbsolute (Camera.mk 5 0 0 0) okCallback ctx0 = (ctx0, none)) :=
  ⟨rfl, rfl,
    camera_drawAbsolute_restores_on_normal_exit Unit (Camera.mk 5 0 0 0) ctx0
      okCallback rfl rfl⟩

/-- C2 counterexample: when the callback throws, drawAbsolute propagates the
exception without restoring: the resulting context still carries the
translation and the saved entry left on the stack, so the state is not
restored on that exit path. -/
theorem camera_drawAbsolute_throw_skips_restore_cex :
    (Camera.drawAbsolute (Camera.mk 5 0 0 0) throwingCallback ctx0).2 = some () ∧
    (Camera.drawAbsolute (Camera.mk 5 0 0 0) throwingCallback ctx0).1.stack
      = ctx0.translation :: ctx0.stack ∧
    (Camera.drawAbsolute (Camera.mk 5 0 0 0) throwingCallback ctx0).1 ≠ ctx0 := by
  have heval : Camera.drawAbsolute (Camera.mk 5 0 0 0) throwingCallback ctx0
      = (Ctx.mk (0 + (5 : ℚ), 0 + (0 : ℚ)) [(0, 0)], some ()) := by
    show (((ctx0.save).translate (toInt32 5 : ℚ) (toInt32 0 : ℚ)), some ()) = _
    rw [toInt32_five, toInt32_zero]
    rfl
  rw [heval]
  refine ⟨rfl, rfl, ?_⟩
  intro hcon
  have : ((0 : ℚ), (0 : ℚ)) :: ([] : List (ℚ × ℚ)) = [] :=
    congrArg Ctx.stack hcon
  cases this

/-- C3, amended: Camera.draw translates the context by exactly
(-(x|0), -(y|0)), where x|0 is ToInt32: truncation toward zero with 32-bit
wrap-around.  This agrees with -floor(x) whenever x is non-negative and
below 2^31, but not for negative non-integral x: see the counterexample. -/
theorem camera_draw_translates_by_toInt32 :
    (∀ (cam : Camera) (c : Ctx),
      Camera.draw cam c = c.translate (-(toInt32 cam.x : ℚ)) (-(toInt32 cam.y : ℚ))) ∧
    (∀ q : ℚ, 0 ≤ q → q < 2 ^ 31 → toInt32 q = ⌊q⌋) := by
  constructor
  · intro cam c
    rfl
  · intro q hq hlt
    have h1 : ratTrunc q = ⌊q⌋ := by
      unfold ratTrunc
      rw [if_pos hq]
    have h0 : (0 : ℤ) ≤ ⌊q⌋ := Int.floor_nonneg.mpr hq
    have h2 : ⌊q⌋ < 2 ^ 31 := by
      rw [Int.floor_lt]
      push_cast
      exact hlt
    have hmod : Int.emod (ratTrunc q) (2 ^ 32) = ⌊q⌋ := by
      rw [h1]
      exact Int.emod_eq_of_lt h0 (lt_trans h2 (by norm_num))
    unfold toInt32
    rw [hmod, if_pos h2]

/-- C3 witness: at x = 5/2 the coercion agrees with the floor. -/
theorem camera_draw_translates_by_toInt32_witness :
    (0 : ℚ) ≤ 5/2 ∧ (5/2 : ℚ) < 2 ^ 31 ∧ toInt32 (5/2) = ⌊(5/2 : ℚ)⌋ :=
  ⟨by norm_num, by norm_num,
    camera_draw_translates_by_toInt32.2 (5/2) (by norm_num) (by norm_num)⟩

/-- C3 counterexample: at x = -3/2 the code translates the x coordinate by
-(x|0) = 1, while -floor(x) = 2, so the claimed floor semantics fails on
negative non-integral coordinates. -/
theorem camera_draw_negative_fraction_cex :
    Camera.draw (Camera.mk (-3/2) 0 0 0) ctx0 = Ctx.mk (1, 0) [] ∧
    -((⌊(-3/2 : ℚ)⌋ : ℤ) : ℚ) = 2 ∧ (1 : ℚ) ≠ 2 := by
  refine ⟨?_, by norm_num, by norm_num⟩
  show ctx0.translate (-(toInt32 (-3/2) : ℚ)) (-(toInt32 0 : ℚ)) = Ctx.mk (1, 0) []
  rw [toInt32_negThreeHalves, toInt32_zero]
  show Ctx.mk (0 + -((-1 : ℤ) : ℚ), 0 + -((0 : ℤ) : ℚ)) [] = Ctx.mk (1, 0) []
  norm_num
